import Mathlib

/-!
Shallow embedding of the LRU cache (`src/lrucache.rs`) and of the cache-backed
image-derivation service (`src/serve.rs`).

The Rust `HashMap<K, usize>` is modelled as an association list with
no duplicate keys; `Vec<CacheEntry<K, V>>` is modelled as a `List`.
Every operation that can panic in Rust (`Vec` indexing, `Option::unwrap`)
is embedded in the `Option` monad: a `none` result marks a panic.
-/

namespace LRU

structure CacheEntry (K V : Type) where
  key : K
  value : Option V
  next : Option Nat
  prev : Option Nat
deriving DecidableEq

structure LRUCache (K V : Type) where
  table : List (K × Nat)
  entries : List (CacheEntry K V)
  first : Option Nat
  last : Option Nat
  capacity : Nat
deriving DecidableEq

variable {K V : Type} [DecidableEq K]

/-- `HashMap::get`: first binding of the key, if any. -/
def tableGet (t : List (K × Nat)) (k : K) : Option Nat :=
  match t with
  | [] => none
  | (k', i) :: rest => if k' = k then some i else tableGet rest k

/-- `HashMap::contains_key`. -/
def tableContains (t : List (K × Nat)) (k : K) : Bool :=
  (tableGet t k).isSome

/-- `HashMap::insert`: replace the binding of `k` if present, else append it. -/
def tableInsertAL (t : List (K × Nat)) (k : K) (i : Nat) : List (K × Nat) :=
  match t with
  | [] => [(k, i)]
  | (k', j) :: rest =>
    if k' = k then (k, i) :: rest else (k', j) :: tableInsertAL rest k i

/-- `HashMap::remove`: drop the first binding of `k`, returning its value. -/
def tableRemove (t : List (K × Nat)) (k : K) : Option Nat × List (K × Nat) :=
  match t with
  | [] => (none, [])
  | (k', i) :: rest =>
    if k' = k then (some i, rest)
    else
      let r := tableRemove rest k
      (r.1, (k', i) :: r.2)

/-- In-place update of `entries[i]` (`&mut self.entries[i]`); panics when
`i` is out of bounds, hence `none` there. -/
def listSet (es : List α) (i : Nat) (f : α → α) : Option (List α) :=
  es[i]?.map fun a => es.set i (f a)

/-- `LRUCache::new`. -/
def new (cap : Nat) : LRUCache K V :=
  { table := [], entries := [], first := none, last := none, capacity := cap }

/-- `LRUCache::len`: the size of the index. -/
def len (c : LRUCache K V) : Nat :=
  c.table.length

/-- `LRUCache::is_empty`. -/
def is_empty (c : LRUCache K V) : Bool :=
  c.table.isEmpty

/-- `LRUCache::is_full`. -/
def is_full (c : LRUCache K V) : Bool :=
  c.table.length == c.capacity

/-- `LRUCache::contains_key`: a pure lookup, mutating nothing. -/
def contains_key (c : LRUCache K V) (k : K) : Bool :=
  tableContains c.table k

/-- `LRUCache::peek`: a pure lookup of the stored value, mutating nothing. -/
def peek (c : LRUCache K V) (k : K) : Option (Option V) :=
  match tableGet c.table k with
  | none => some none
  | some i =>
    match c.entries[i]? with
    | none => none
    | some e => some e.value

/-- `LRUCache::remove_from_list`. -/
def remove_from_list (c : LRUCache K V) (i : Nat) : Option (LRUCache K V) :=
  match c.entries[i]? with
  | none => none
  | some entry =>
    match entry.prev, entry.next with
    | some j, some k =>
      match listSet c.entries j (fun e => { e with next := entry.next }) with
      | none => none
      | some es1 =>
        match listSet es1 k (fun e => { e with prev := entry.prev }) with
        | none => none
        | some es2 => some { c with entries := es2 }
    | some j, none =>
      match listSet c.entries j (fun e => { e with next := none }) with
      | none => none
      | some es1 => some { c with entries := es1, last := entry.prev }
    | none, _ => some c

/-- `LRUCache::access`: detach the slot and point `first` at it. -/
def access (c : LRUCache K V) (k : K) : Option (LRUCache K V) :=
  match tableGet c.table k with
  | none => none
  | some i =>
    match remove_from_list c i with
    | none => none
    | some c1 => some { c1 with first := some i }

/-- `LRUCache::remove_last`. -/
def remove_last (c : LRUCache K V) : Option (LRUCache K V) :=
  match c.last with
  | some idx =>
    match remove_from_list c idx with
    | none => none
    | some c1 =>
      match c1.entries[idx]? with
      | none => none
      | some e =>
        let c2 := { c1 with table := (tableRemove c1.table e.key).2 }
        if c2.last.isNone then some { c2 with first := none } else some c2
  | none =>
    if c.last.isNone then some { c with first := none } else some c

/-- `LRUCache::ensure_room`. -/
def ensure_room (c : LRUCache K V) : Option (LRUCache K V) :=
  if c.capacity = len c then remove_last c else some c

/-- `LRUCache::insert`. -/
def insert (c : LRUCache K V) (k : K) (v : V) : Option (Option V × LRUCache K V) :=
  if tableContains c.table k then
    match access c k with
    | none => none
    | some c1 =>
      match c1.first with
      | none => none
      | some f =>
        match c1.entries[f]? with
        | none => none
        | some entry =>
          match listSet c1.entries f (fun e => { e with value := some v }) with
          | none => none
          | some es => some (entry.value, { c1 with entries := es })
  else
    match ensure_room c with
    | none => none
    | some c1 =>
      let idx := c1.entries.length
      let c2 :=
        match c1.first with
        | some e => listSet c1.entries e (fun en => { en with prev := some idx })
        | none => some c1.entries
      match c2 with
      | none => none
      | some es =>
        some (none,
          { table := tableInsertAL c1.table k idx
            entries := es ++ [{ key := k, value := some v, next := c1.first, prev := none }]
            first := some idx
            last := c1.last.or (some idx)
            capacity := c1.capacity })

/-- `LRUCache::remove`. -/
def remove (c : LRUCache K V) (k : K) : Option (Option V × LRUCache K V) :=
  match tableRemove c.table k with
  | (none, t') => some (none, { c with table := t' })
  | (some idx, t') =>
    match remove_from_list { c with table := t' } idx with
    | none => none
    | some c1 =>
      match c1.entries[idx]? with
      | none => none
      | some e =>
        match e.value with
        | none => none
        | some v =>
          match listSet c1.entries idx (fun en => { en with value := none }) with
          | none => none
          | some es => some (some v, { c1 with entries := es })

/-- `LRUCache::get`: promote on a hit, then peek. -/
def get (c : LRUCache K V) (k : K) : Option (Option V × LRUCache K V) :=
  match (if contains_key c k then access c k else some c) with
  | none => none
  | some c1 =>
    match peek c1 k with
    | none => none
    | some r => some (r, c1)

/-- `LRUCache::get_mut`: identical promotion and lookup path as `get`. -/
def get_mut (c : LRUCache K V) (k : K) : Option (Option V × LRUCache K V) :=
  match (if contains_key c k then access c k else some c) with
  | none => none
  | some c1 =>
    match tableGet c1.table k with
    | none => some (none, c1)
    | some i =>
      match c1.entries[i]? with
      | none => none
      | some e => some (e.value, c1)

/-- Run a sequence of inserts left to right. -/
def runInserts (c : LRUCache K V) : List (K × V) → Option (LRUCache K V)
  | [] => some c
  | (k, v) :: rest =>
    match insert c k v with
    | none => none
    | some (_, c') => runInserts c' rest

/-- The part of an arena slot that list surgery never touches. -/
def keyVal (e : CacheEntry K V) : K × Option V :=
  (e.key, e.value)

/-- The state reached by the first insert into a fresh cache. -/
def singletonCache (cap : Nat) (k : K) (v : V) : LRUCache K V :=
  { table := [(k, 0)]
    entries := [{ key := k, value := some v, next := none, prev := none }]
    first := some 0
    last := some 0
    capacity := cap }

/-- The state reached by inserting `A` then `B` into a fresh capacity-2 cache:
slot 1 (key `B`) is the head, slot 0 (key `A`) is the tail. -/
def pairCache (A B : K) (vA vB : V) : LRUCache K V :=
  { table := [(A, 0), (B, 1)]
    entries := [{ key := A, value := some vA, next := none, prev := some 1 },
                { key := B, value := some vB, next := some 0, prev := none }]
    first := some 1
    last := some 0
    capacity := 2 }

/-- An optional index is in range. -/
def idxOk (n : Nat) : Option Nat → Prop
  | none => True
  | some i => i < n

instance (n : Nat) : (o : Option Nat) → Decidable (idxOk n o)
  | none => .isTrue trivial
  | some i => inferInstanceAs (Decidable (i < n))

/-- The slot `i` exists and holds a live (non-taken) value. -/
def slotOk (es : List (CacheEntry K V)) (i : Nat) : Prop :=
  match es[i]? with
  | none => False
  | some e => e.value.isSome = true

instance (es : List (CacheEntry K V)) (i : Nat) : Decidable (slotOk es i) :=
  match h : es[i]? with
  | none => .isFalse (by simp [slotOk, h])
  | some e => decidable_of_iff (e.value.isSome = true) (by simp [slotOk, h])

/-- Both neighbor links of an entry are in range. -/
def entryOk (n : Nat) (e : CacheEntry K V) : Prop :=
  idxOk n e.prev ∧ idxOk n e.next

instance (n : Nat) (e : CacheEntry K V) : Decidable (entryOk n e) :=
  inferInstanceAs (Decidable (_ ∧ _))

/-- Well-formedness of a cache state: every index stored in the table is a live
in-range arena slot, `first`/`last` and all entry links are in range, and the
table binds each key, and each slot, at most once. -/
def WF (c : LRUCache K V) : Prop :=
  (∀ p ∈ c.table, p.2 < c.entries.length ∧ slotOk c.entries p.2) ∧
  idxOk c.entries.length c.first ∧
  idxOk c.entries.length c.last ∧
  (∀ e ∈ c.entries, entryOk c.entries.length e) ∧
  (c.table.map Prod.fst).Nodup ∧
  (c.table.map Prod.snd).Nodup

instance (c : LRUCache K V) : Decidable (WF c) := by
  unfold WF; infer_instance

/-- Invariant of a capacity-0 cache that has absorbed at least one insert:
well-formed, still capacity 0, non-empty, and its key set is exactly `S`. -/
def C3Inv (c : LRUCache K V) (S : Finset K) : Prop :=
  WF c ∧ c.capacity = 0 ∧ 1 ≤ len c ∧
  (∀ k : K, contains_key c k = true ↔ k ∈ S) ∧ len c = S.card

/-- The cache states produced by the public mutating operations. -/
inductive Reachable : LRUCache K V → Prop
  | init (cap : Nat) : Reachable (new cap)
  | insert_step {c : LRUCache K V} {k : K} {v : V} {r : Option V} {c' : LRUCache K V} :
      Reachable c → insert c k v = some (r, c') → Reachable c'
  | remove_step {c : LRUCache K V} {k : K} {r : Option V} {c' : LRUCache K V} :
      Reachable c → remove c k = some (r, c') → Reachable c'
  | get_step {c : LRUCache K V} {k : K} {r : Option V} {c' : LRUCache K V} :
      Reachable c → get c k = some (r, c') → Reachable c'
  | get_mut_step {c : LRUCache K V} {k : K} {r : Option V} {c' : LRUCache K V} :
      Reachable c → get_mut c k = some (r, c') → Reachable c'

/-- Outcome of one request to `serve_image` (`src/serve.rs`): a served blob, the
404 fallback, or a panic with the panic message. -/
inductive ServeOutcome (V : Type) where
  | served (v : V)
  | notFound
  | panicked (msg : String)
deriving DecidableEq

/-- The cache interaction of `serve_image` (`src/serve.rs`), for one request
whose derivation key (the width-normalized file path) is `key`.  The whole body
runs while holding the single coarse `Mutex` on the cache, so a run of the
system is a sequence of these atomic steps.  `fileExists` stands for
`fn_path.is_file()`; `compute` is the fallible open-resize-save-read step.  The
returned `Bool` records whether `compute` was invoked.  The outer `Option` is
the embedding-level panic of a cache-engine call itself. -/
def serve_image (c : LRUCache K V) (key : K) (fileExists : Bool)
    (compute : Except String V) : Option (ServeOutcome V × LRUCache K V × Bool) :=
  if contains_key c key then
    match get c key with
    | none => none
    | some (none, c1) =>
      some (.panicked "Unable to retrieve image entry from cache.", c1, false)
    | some (some v, c1) => some (.served v, c1, false)
  else
    if fileExists = false then some (.notFound, c, false)
    else
      match compute with
      | .error e => some (.panicked e, c, true)
      | .ok contents =>
        match insert c key contents with
        | none => none
        | some (_, c1) =>
          match get c1 key with
          | none => none
          | some (none, c2) =>
            some (.panicked "Unable to retrieve entry from cache.", c2, true)
          | some (some v, c2) => some (.served v, c2, true)

/-- `n` back-to-back requests for the same key (the serialization order that the
coarse lock imposes on `n` concurrent callers), returning the final cache state
and the total number of `compute` invocations. -/
def serveN (c : LRUCache K V) (key : K) (fileExists : Bool)
    (compute : Except String V) : Nat → Option (LRUCache K V × Nat)
  | 0 => some (c, 0)
  | n + 1 =>
    match serve_image c key fileExists compute with
    | none => none
    | some (_, c', invoked) =>
      (serveN c' key fileExists compute n).map
        fun p => (p.1, (if invoked then 1 else 0) + p.2)

/-! ### Association-list (`HashMap`) lemmas -/

theorem tableGet_mem {t : List (K × Nat)} {k : K} {i : Nat}
    (h : tableGet t k = some i) : (k, i) ∈ t := by
  induction t with
  | nil => simp [tableGet] at h
  | cons p rest ih =>
    obtain ⟨k', j⟩ := p
    by_cases hk : k' = k
    · subst hk
      simp [tableGet] at h
      simp [h]
    · simp [tableGet, hk] at h
      exact List.mem_cons_of_mem _ (ih h)

theorem tableGet_eq_none_iff {t : List (K × Nat)} {k : K} :
    tableGet t k = none ↔ k ∉ t.map Prod.fst := by
  induction t with
  | nil => simp [tableGet]
  | cons p rest ih =>
    obtain ⟨k', j⟩ := p
    by_cases hk : k' = k
    · subst hk; simp [tableGet]
    · simp [tableGet, hk, ih, Ne.symm hk]

theorem tableContains_false_iff {t : List (K × Nat)} {k : K} :
    tableContains t k = false ↔ k ∉ t.map Prod.fst := by
  rw [← tableGet_eq_none_iff]
  unfold tableContains
  cases tableGet t k <;> simp

theorem tableContains_true_iff {t : List (K × Nat)} {k : K} :
    tableContains t k = true ↔ k ∈ t.map Prod.fst := by
  constructor
  · intro h
    unfold tableContains at h
    cases hg : tableGet t k with
    | none => rw [hg] at h; simp at h
    | some i => exact List.mem_map.mpr ⟨(k, i), tableGet_mem hg, rfl⟩
  · intro h
    by_contra hc
    rw [Bool.not_eq_true] at hc
    exact (tableContains_false_iff.mp hc) h

theorem tableInsertAL_of_not_mem {t : List (K × Nat)} {k : K} (i : Nat)
    (h : k ∉ t.map Prod.fst) : tableInsertAL t k i = t ++ [(k, i)] := by
  induction t with
  | nil => simp [tableInsertAL]
  | cons p rest ih =>
    obtain ⟨k', j⟩ := p
    simp only [List.map_cons, List.mem_cons, not_or] at h
    have h1 : ¬k' = k := fun hh => h.1 hh.symm
    simp [tableInsertAL, h1, ih h.2]

theorem tableGet_append_not_mem {t : List (K × Nat)} {k : K} (i : Nat)
    (h : k ∉ t.map Prod.fst) : tableGet (t ++ [(k, i)]) k = some i := by
  induction t with
  | nil => simp [tableGet]
  | cons p rest ih =>
    obtain ⟨k', j⟩ := p
    simp only [List.map_cons, List.mem_cons, not_or] at h
    have h1 : ¬k' = k := fun hh => h.1 hh.symm
    simp [tableGet, h1, ih h.2]

theorem tableContains_append_single {t : List (K × Nat)} {k k' : K} {i : Nat} :
    tableContains (t ++ [(k, i)]) k' = true ↔
      (tableContains t k' = true ∨ k' = k) := by
  induction t with
  | nil =>
    constructor
    · intro h
      by_cases hk : k = k'
      · exact Or.inr hk.symm
      · simp [tableContains, tableGet, hk] at h
    · rintro (h | rfl)
      · simp [tableContains, tableGet] at h
      · simp [tableContains, tableGet]
  | cons p rest ih =>
    obtain ⟨k'', j⟩ := p
    by_cases hk : k'' = k'
    · subst hk
      simp [tableContains, tableGet]
    · simp only [List.cons_append, tableContains, tableGet, hk, if_false] at *
      exact ih

theorem tableRemove_fst {t : List (K × Nat)} {k : K} :
    (tableRemove t k).1 = tableGet t k := by
  induction t with
  | nil => simp [tableRemove, tableGet]
  | cons p rest ih =>
    obtain ⟨k', j⟩ := p
    by_cases hk : k' = k
    · simp [tableRemove, tableGet, hk]
    · simp [tableRemove, tableGet, hk, ih]

theorem tableRemove_sublist {t : List (K × Nat)} {k : K} :
    ((tableRemove t k).2).Sublist t := by
  induction t with
  | nil => simp [tableRemove]
  | cons p rest ih =>
    obtain ⟨k', j⟩ := p
    by_cases hk : k' = k
    · simp [tableRemove, hk]
    · simp [tableRemove, hk]
      exact ih

theorem map_fst_tableRemove {t : List (K × Nat)} {k : K} :
    ((tableRemove t k).2).map Prod.fst = (t.map Prod.fst).erase k := by
  induction t with
  | nil => simp [tableRemove]
  | cons p rest ih =>
    obtain ⟨k', j⟩ := p
    by_cases hk : k' = k
    · subst hk
      simp [tableRemove, List.erase_cons_head]
    · have hbeq : ¬(k' == k) = true := by simpa using hk
      simp [tableRemove, hk, ih, List.erase_cons_tail hbeq]

theorem tableRemove_of_not_mem {t : List (K × Nat)} {k : K}
    (h : k ∉ t.map Prod.fst) : tableRemove t k = (none, t) := by
  induction t with
  | nil => simp [tableRemove]
  | cons p rest ih =>
    obtain ⟨k', j⟩ := p
    simp only [List.map_cons, List.mem_cons, not_or] at h
    have h1 : ¬k' = k := fun hh => h.1 hh.symm
    simp [tableRemove, h1, ih h.2]

/-! ### `listSet` lemmas -/

theorem listSet_isSome {es : List α} {i : Nat} (f : α → α)
    (h : i < es.length) : (listSet es i f).isSome := by
  simp [listSet, List.getElem?_eq_getElem h]

theorem listSet_eq_some {es es' : List α} {i : Nat} {f : α → α}
    (h : listSet es i f = some es') :
    ∃ a, es[i]? = some a ∧ es' = es.set i (f a) := by
  simp only [listSet, Option.map_eq_some'] at h
  obtain ⟨a, ha, rfl⟩ := h
  exact ⟨a, ha, rfl⟩

theorem length_listSet {es es' : List α} {i : Nat} {f : α → α}
    (h : listSet es i f = some es') : es'.length = es.length := by
  obtain ⟨a, _, rfl⟩ := listSet_eq_some h
  simp

theorem getElem?_listSet_map {es es' : List α} {i : Nat} {f : α → α}
    (g : α → β) (h : listSet es i f = some es') (hg : ∀ a, g (f a) = g a) :
    ∀ j : Nat, es'[j]?.map g = es[j]?.map g := by
  obtain ⟨a, ha, rfl⟩ := listSet_eq_some h
  intro j
  by_cases hij : i = j
  · subst hij
    simp [List.getElem?_set_self', ha, hg]
  · simp [List.getElem?_set_ne hij]

theorem mem_listSet {es es' : List α} {i : Nat} {f : α → α}
    (h : listSet es i f = some es') {e : α} (he : e ∈ es') :
    e ∈ es ∨ ∃ a, a ∈ es ∧ e = f a := by
  obtain ⟨a, ha, rfl⟩ := listSet_eq_some h
  rcases List.mem_or_eq_of_mem_set he with h' | rfl
  · exact Or.inl h'
  · exact Or.inr ⟨a, List.getElem?_mem ha, rfl⟩

theorem getElem?_listSet_self {es es' : List α} {i : Nat} {f : α → α} {a : α}
    (h : listSet es i f = some es') (ha : es[i]? = some a) :
    es'[i]? = some (f a) := by
  obtain ⟨a', ha', rfl⟩ := listSet_eq_some h
  rw [ha] at ha'
  cases ha'
  simp [List.getElem?_set_self', ha]

theorem getElem?_listSet_ne {es es' : List α} {i j : Nat} {f : α → α}
    (h : listSet es i f = some es') (hij : i ≠ j) :
    es'[j]? = es[j]? := by
  obtain ⟨a, _, rfl⟩ := listSet_eq_some h
  simp [List.getElem?_set_ne hij]

/-! ### Well-formedness transport -/

theorem keyVal_value_eq {e e' : CacheEntry K V} (h : keyVal e = keyVal e') :
    e.value = e'.value := by
  simp only [keyVal, Prod.mk.injEq] at h
  exact h.2

theorem slotOk_congr {es es' : List (CacheEntry K V)} {i : Nat}
    (hkv : ∀ j : Nat, es'[j]?.map keyVal = es[j]?.map keyVal)
    (h : slotOk es i) : slotOk es' i := by
  unfold slotOk at h ⊢
  cases hg : es[i]? with
  | none => rw [hg] at h; exact h.elim
  | some e =>
    rw [hg] at h
    have := hkv i
    rw [hg] at this
    cases hg' : es'[i]? with
    | none => rw [hg'] at this; simp at this
    | some e' =>
      rw [hg'] at this
      simp only [Option.map_some'] at this
      show e'.value.isSome = true
      rw [keyVal_value_eq (Option.some.inj this)]
      exact h

theorem idxOk_of_eq {n n' : Nat} {o : Option Nat} (h : n = n')
    (ho : idxOk n o) : idxOk n' o := h ▸ ho

theorem idxOk_some {n i : Nat} (h : i < n) : idxOk n (some i) := h

theorem entryOk_of_eq {n n' : Nat} (h : n = n') {e : CacheEntry K V}
    (he : entryOk n e) : entryOk n' e := h ▸ he

theorem WF_mk_of {c : LRUCache K V} (hwf : WF c)
    {es' : List (CacheEntry K V)} {lst : Option Nat}
    (hlen : es'.length = c.entries.length)
    (hkv : ∀ j : Nat, es'[j]?.map keyVal = c.entries[j]?.map keyVal)
    (hent : ∀ e ∈ es', entryOk c.entries.length e)
    (hlst : idxOk c.entries.length lst) :
    WF { c with entries := es', last := lst } := by
  obtain ⟨h1, h2, h3, h4, h5, h6⟩ := hwf
  refine ⟨?_, ?_, ?_, ?_, h5, h6⟩
  · intro p hp
    exact ⟨hlen ▸ (h1 p hp).1, slotOk_congr hkv (h1 p hp).2⟩
  · exact idxOk_of_eq hlen.symm h2
  · exact idxOk_of_eq hlen.symm hlst
  · intro e he
    exact (entryOk_of_eq hlen.symm (hent e he) : _)

/-! ### Specifications of the internal operations -/

/-- `remove_from_list` never panics on an in-range slot of a well-formed cache,
and it touches only the `prev`/`next` fields of the arena and the `last`
pointer: table, `first`, capacity, arena length and all key/value pairs are
unchanged, and well-formedness is preserved. -/
theorem remove_from_list_spec {c : LRUCache K V} {i : Nat} (hwf : WF c)
    (hi : i < c.entries.length) :
    ∃ c', remove_from_list c i = some c' ∧ WF c' ∧
      c'.table = c.table ∧ c'.first = c.first ∧ c'.capacity = c.capacity ∧
      c'.entries.length = c.entries.length ∧
      (∀ j : Nat, c'.entries[j]?.map keyVal = c.entries[j]?.map keyVal) := by
  have hget : c.entries[i]? = some c.entries[i] := List.getElem?_eq_getElem hi
  have hmem : c.entries[i] ∈ c.entries := List.getElem?_mem hget
  have hentOk : entryOk c.entries.length c.entries[i] := hwf.2.2.2.1 _ hmem
  cases hp : (c.entries[i]).prev with
  | none =>
    refine ⟨c, ?_, hwf, rfl, rfl, rfl, rfl, fun j => rfl⟩
    simp only [remove_from_list, hget, hp]
  | some j =>
    have hj : j < c.entries.length := by
      have h := hentOk.1
      rw [hp] at h
      exact h
    cases hn : (c.entries[i]).next with
    | none =>
      obtain ⟨es1, hes1⟩ :
          ∃ es1, listSet c.entries j (fun e => { e with next := none }) = some es1 :=
        Option.isSome_iff_exists.mp (listSet_isSome _ hj)
      have hlen1 : es1.length = c.entries.length := length_listSet hes1
      have hkv1 : ∀ j' : Nat, es1[j']?.map keyVal = c.entries[j']?.map keyVal :=
        getElem?_listSet_map keyVal hes1 (fun a => rfl)
      have hent1 : ∀ e ∈ es1, entryOk c.entries.length e := by
        intro e he
        rcases mem_listSet hes1 he with h | ⟨a, ha, rfl⟩
        · exact hwf.2.2.2.1 _ h
        · exact ⟨(hwf.2.2.2.1 a ha).1, trivial⟩
      refine ⟨{ c with entries := es1, last := some j }, ?_,
        WF_mk_of hwf hlen1 hkv1 hent1 (idxOk_some hj), rfl, rfl, rfl, hlen1, hkv1⟩
      simp only [remove_from_list, hget, hp, hn, hes1]
    | some k2 =>
      have hk2 : k2 < c.entries.length := by
        have h := hentOk.2
        rw [hn] at h
        exact h
      obtain ⟨es1, hes1⟩ :
          ∃ es1, listSet c.entries j (fun e => { e with next := some k2 }) = some es1 :=
        Option.isSome_iff_exists.mp (listSet_isSome _ hj)
      have hlen1 : es1.length = c.entries.length := length_listSet hes1
      have hkv1 : ∀ j' : Nat, es1[j']?.map keyVal = c.entries[j']?.map keyVal :=
        getElem?_listSet_map keyVal hes1 (fun a => rfl)
      obtain ⟨es2, hes2⟩ :
          ∃ es2, listSet es1 k2 (fun e => { e with prev := some j }) = some es2 :=
        Option.isSome_iff_exists.mp (listSet_isSome _ (hlen1 ▸ hk2))
      have hlen2 : es2.length = c.entries.length := (length_listSet hes2).trans hlen1
      have hkv2 : ∀ j' : Nat, es2[j']?.map keyVal = c.entries[j']?.map keyVal :=
        fun j' => (getElem?_listSet_map keyVal hes2 (fun a => rfl) j').trans (hkv1 j')
      have hent2 : ∀ e ∈ es2, entryOk c.entries.length e := by
        intro e he
        have hent1 : ∀ e ∈ es1, entryOk c.entries.length e := by
          intro e1 he1
          rcases mem_listSet hes1 he1 with h | ⟨a, ha, rfl⟩
          · exact hwf.2.2.2.1 _ h
          · exact ⟨(hwf.2.2.2.1 a ha).1, hk2⟩
        rcases mem_listSet hes2 he with h | ⟨a, ha, rfl⟩
        · exact hent1 _ h
        · exact ⟨hj, (hent1 a ha).2⟩
      refine ⟨{ c with entries := es2 }, ?_,
        WF_mk_of hwf hlen2 hkv2 hent2 hwf.2.2.1, rfl, rfl, rfl, hlen2, hkv2⟩
      simp only [remove_from_list, hget, hp, hn, hes1, hes2]

/-- The exact link surgery `remove_from_list` performs, by the position of the
removed entry: an entry at the end with a predecessor moves `last` to the
predecessor and clears the predecessor's `next`; a middle entry joins its two
neighbors and leaves `last` alone; a front entry (no `prev`) changes nothing
at all. -/
theorem remove_from_list_links {c : LRUCache K V} {i : Nat}
    {entry : CacheEntry K V} (hget : c.entries[i]? = some entry)
    {c1 : LRUCache K V} (heq : remove_from_list c i = some c1) :
    (∀ j : Nat, entry.prev = some j → entry.next = none →
      c1.last = some j ∧ (c1.entries[j]?).map CacheEntry.next = some none) ∧
    (∀ j k2 : Nat, entry.prev = some j → entry.next = some k2 →
      c1.last = c.last ∧
      (c1.entries[j]?).map CacheEntry.next = some (some k2) ∧
      (c1.entries[k2]?).map CacheEntry.prev = some (some j)) ∧
    (entry.prev = none → c1 = c) := by
  cases hp : entry.prev with
  | none =>
    have hc : c1 = c := by
      simp only [remove_from_list, hget, hp] at heq
      exact (Option.some.inj heq).symm
    refine ⟨?_, ?_, fun _ => hc⟩
    · intro j hj _
      exact Option.noConfusion hj
    · intro j k2 hj _
      exact Option.noConfusion hj
  | some j0 =>
    cases hn : entry.next with
    | none =>
      simp only [remove_from_list, hget, hp, hn] at heq
      cases hes : listSet c.entries j0 (fun e => { e with next := none }) with
      | none =>
        rw [hes] at heq
        exact Option.noConfusion heq
      | some es1 =>
        rw [hes] at heq
        have hc1 : c1 = { c with entries := es1, last := some j0 } :=
          (Option.some.inj heq).symm
        obtain ⟨a, haj, hset⟩ := listSet_eq_some hes
        refine ⟨?_, ?_, ?_⟩
        · intro j hj _
          obtain rfl : j0 = j := Option.some.inj hj
          constructor
          · rw [hc1]
          · rw [hc1]
            show es1[j0]?.map CacheEntry.next = some none
            rw [getElem?_listSet_self hes haj]
            rfl
        · intro j k2 hj hk
          exact Option.noConfusion hk
        · intro hpn
          exact Option.noConfusion hpn
    | some k0 =>
      simp only [remove_from_list, hget, hp, hn] at heq
      cases hes1 : listSet c.entries j0 (fun e => { e with next := some k0 }) with
      | none =>
        rw [hes1] at heq
        exact Option.noConfusion heq
      | some es1 =>
        simp only [hes1] at heq
        cases hes2 : listSet es1 k0 (fun e => { e with prev := some j0 }) with
        | none =>
          rw [hes2] at heq
          exact Option.noConfusion heq
        | some es2 =>
          rw [hes2] at heq
          have hc1 : c1 = { c with entries := es2 } := (Option.some.inj heq).symm
          obtain ⟨a, haj, hset1⟩ := listSet_eq_some hes1
          obtain ⟨b, hbk, hset2⟩ := listSet_eq_some hes2
          refine ⟨?_, ?_, ?_⟩
          · intro j hj hn2
            exact Option.noConfusion hn2
          · intro j k2 hj hk2
            obtain rfl : j0 = j := Option.some.inj hj
            obtain rfl : k0 = k2 := Option.some.inj hk2
            refine ⟨by rw [hc1], ?_, ?_⟩
            · rw [hc1]
              show es2[j0]?.map CacheEntry.next = some (some k0)
              by_cases hjk : k0 = j0
              · subst hjk
                have hb : b = { a with next := some k0 } := by
                  have h1 := getElem?_listSet_self hes1 haj
                  rw [hbk] at h1
                  exact Option.some.inj h1
                rw [getElem?_listSet_self hes2 hbk, hb]
                rfl
              · rw [getElem?_listSet_ne hes2 hjk,
                  getElem?_listSet_self hes1 haj]
                rfl
            · rw [hc1]
              show es2[k0]?.map CacheEntry.prev = some (some j0)
              rw [getElem?_listSet_self hes2 hbk]
              rfl
          · intro hpn
            exact Option.noConfusion hpn

/-- `access` never panics on a present key of a well-formed cache; it leaves
table, capacity, arena length and all key/value pairs unchanged and repoints
`first` at the accessed slot. -/
theorem access_spec {c : LRUCache K V} {k : K} {i : Nat} (hwf : WF c)
    (hget : tableGet c.table k = some i) :
    ∃ c', access c k = some c' ∧ WF c' ∧
      c'.table = c.table ∧ c'.capacity = c.capacity ∧
      c'.entries.length = c.entries.length ∧
      (∀ j : Nat, c'.entries[j]?.map keyVal = c.entries[j]?.map keyVal) ∧
      c'.first = some i := by
  have hi : i < c.entries.length := (hwf.1 (k, i) (tableGet_mem hget)).1
  obtain ⟨c1, he, hwf1, ht, hf, hc, hl, hkv⟩ := remove_from_list_spec hwf hi
  refine ⟨{ c1 with first := some i }, ?_, ?_, ht, hc, hl, hkv, rfl⟩
  · simp only [access, hget, he]
  · obtain ⟨w1, w2, w3, w4, w5, w6⟩ := hwf1
    exact ⟨w1, (show idxOk c1.entries.length (some i) from hl.symm ▸ hi), w3, w4, w5, w6⟩

/-- `remove_last` never panics on a well-formed cache; it preserves
well-formedness, capacity, arena length and all key/value pairs, and its
resulting table is a sublist of the old one. -/
theorem remove_last_spec {c : LRUCache K V} (hwf : WF c) :
    ∃ c', remove_last c = some c' ∧ WF c' ∧
      c'.capacity = c.capacity ∧
      c'.entries.length = c.entries.length ∧
      (∀ j : Nat, c'.entries[j]?.map keyVal = c.entries[j]?.map keyVal) ∧
      c'.table.Sublist c.table := by
  cases hl : c.last with
  | none =>
    refine ⟨{ c with first := none }, ?_, ?_, rfl, rfl, fun j => rfl, List.Sublist.refl _⟩
    · simp [remove_last, hl]
    · exact ⟨hwf.1, trivial, hwf.2.2.1, hwf.2.2.2.1, hwf.2.2.2.2.1, hwf.2.2.2.2.2⟩
  | some idx =>
    have hidx : idx < c.entries.length := by
      have h := hwf.2.2.1
      rw [hl] at h
      exact h
    obtain ⟨c1, he, hwf1, ht, hf, hc, hlen, hkv⟩ := remove_from_list_spec hwf hidx
    have hidx1 : idx < c1.entries.length := hlen.symm ▸ hidx
    have hget1 : c1.entries[idx]? = some c1.entries[idx] := List.getElem?_eq_getElem hidx1
    have hsub : ((tableRemove c1.table (c1.entries[idx]).key).2).Sublist c.table :=
      ht ▸ tableRemove_sublist
    have hw2 : WF { c1 with table := (tableRemove c1.table (c1.entries[idx]).key).2 } := by
      obtain ⟨w1, w2, w3, w4, w5, w6⟩ := hwf1
      refine ⟨?_, w2, w3, w4, ?_, ?_⟩
      · intro p hp
        exact w1 p (tableRemove_sublist.subset hp)
      · exact (tableRemove_sublist.map Prod.fst).nodup w5
      · exact (tableRemove_sublist.map Prod.snd).nodup w6
    cases hni : c1.last with
    | none =>
      refine ⟨{ c1 with
          table := (tableRemove c1.table (c1.entries[idx]).key).2
          first := none }, ?_, ?_, hc, hlen, hkv, hsub⟩
      · simp [remove_last, hl, he, hget1, hni]
      · obtain ⟨w1, w2, w3, w4, w5, w6⟩ := hw2
        exact ⟨w1, trivial, w3, w4, w5, w6⟩
    | some l2 =>
      refine ⟨{ c1 with table := (tableRemove c1.table (c1.entries[idx]).key).2 },
        ?_, hw2, hc, hlen, hkv, hsub⟩
      simp [remove_last, hl, he, hget1, hni]

/-- `ensure_room` never panics on a well-formed cache, with the same frame as
`remove_last`. -/
theorem ensure_room_spec {c : LRUCache K V} (hwf : WF c) :
    ∃ c', ensure_room c = some c' ∧ WF c' ∧
      c'.capacity = c.capacity ∧
      c'.entries.length = c.entries.length ∧
      (∀ j : Nat, c'.entries[j]?.map keyVal = c.entries[j]?.map keyVal) ∧
      c'.table.Sublist c.table := by
  by_cases h : c.capacity = len c
  · obtain ⟨c', he, rest⟩ := remove_last_spec hwf
    exact ⟨c', by simp only [ensure_room, h, if_true]; exact he, rest⟩
  · exact ⟨c, by simp only [ensure_room, h, if_false], hwf, rfl, rfl, fun j => rfl,
      List.Sublist.refl _⟩

/-- `ensure_room` is the identity when the cache is not at capacity. -/
theorem ensure_room_noop {c : LRUCache K V} (h : ¬c.capacity = len c) :
    ensure_room c = some c := by
  simp only [ensure_room, h, if_false]

theorem idxOk_mono {n m : Nat} (h : n ≤ m) {o : Option Nat} (ho : idxOk n o) :
    idxOk m o := by
  cases o with
  | none => trivial
  | some i => exact Nat.lt_of_lt_of_le ho h

theorem slotOk_of_getElem?_eq {es es' : List (CacheEntry K V)} {i : Nat}
    (h : es'[i]? = es[i]?) (hs : slotOk es i) : slotOk es' i := by
  unfold slotOk at hs ⊢
  rw [h]
  exact hs

/-- `insert` on an already-present key of a well-formed cache: promotes,
replaces the stored value and returns the prior one; the table (hence `len`)
and the arena length are unchanged. -/
theorem insert_present_spec {c : LRUCache K V} {k : K} {i : Nat} (hwf : WF c)
    (hget : tableGet c.table k = some i) (v : V) :
    ∃ c', insert c k v = some (c.entries[i]?.bind CacheEntry.value, c') ∧ WF c' ∧
      c'.table = c.table ∧ c'.capacity = c.capacity ∧
      c'.entries.length = c.entries.length ∧
      peek c' k = some (some v) := by
  have hcont : tableContains c.table k = true := by
    simp [tableContains, hget]
  obtain ⟨c1, hacc, hwf1, ht1, hcap1, hlen1, hkv1, hfirst1⟩ := access_spec hwf hget
  have hi : i < c.entries.length := (hwf.1 (k, i) (tableGet_mem hget)).1
  have hi1 : i < c1.entries.length := hlen1.symm ▸ hi
  have hget0 : c.entries[i]? = some c.entries[i] := List.getElem?_eq_getElem hi
  have hget1 : c1.entries[i]? = some c1.entries[i] := List.getElem?_eq_getElem hi1
  have hkvi : some (keyVal c1.entries[i]) = some (keyVal c.entries[i]) := by
    have h := hkv1 i
    rw [hget0, hget1] at h
    exact h
  have hvali : (c1.entries[i]).value = (c.entries[i]).value :=
    keyVal_value_eq (Option.some.inj hkvi)
  obtain ⟨es, hes⟩ :
      ∃ es, listSet c1.entries i (fun e => { e with value := some v }) = some es :=
    Option.isSome_iff_exists.mp (listSet_isSome _ hi1)
  have heslen : es.length = c1.entries.length := length_listSet hes
  have hselfi : es[i]? = some { c1.entries[i] with value := some v } :=
    getElem?_listSet_self hes hget1
  refine ⟨{ c1 with entries := es }, ?_, ?_, ht1, hcap1,
    heslen.trans hlen1, ?_⟩
  · have heq : insert c k v = some ((c1.entries[i]).value, { c1 with entries := es }) := by
      simp only [insert, hcont, if_true, hacc, hfirst1, hget1, hes]
    rw [heq, hvali, hget0]
    rfl
  · obtain ⟨w1, w2, w3, w4, w5, w6⟩ := hwf1
    refine ⟨?_, ?_, ?_, ?_, w5, w6⟩
    · intro p hp
      refine ⟨heslen ▸ (w1 p hp).1, ?_⟩
      by_cases hpi : p.2 = i
      · rw [hpi]
        unfold slotOk
        rw [hselfi]
        rfl
      · exact slotOk_of_getElem?_eq (getElem?_listSet_ne hes (fun h => hpi h.symm))
          (w1 p hp).2
    · exact idxOk_of_eq heslen.symm w2
    · exact idxOk_of_eq heslen.symm w3
    · intro e he
      rcases mem_listSet hes he with h | ⟨a, ha, rfl⟩
      · exact entryOk_of_eq heslen.symm (w4 e h)
      · exact entryOk_of_eq heslen.symm (w4 a ha)
  · unfold peek
    rw [show ({ c1 with entries := es } : LRUCache K V).table = c.table from ht1, hget]
    simp only [hselfi]

/-- `insert` on an absent key of a well-formed cache: makes room, appends a
fresh slot holding the new value, binds the key to it, and returns `none`. -/
theorem insert_miss_spec {c : LRUCache K V} {k : K} (hwf : WF c)
    (hmiss : tableContains c.table k = false) (v : V) :
    ∃ c1 c', ensure_room c = some c1 ∧
      insert c k v = some (none, c') ∧ WF c' ∧
      c'.capacity = c.capacity ∧
      c'.table = c1.table ++ [(k, c1.entries.length)] ∧
      c'.entries.length = c1.entries.length + 1 ∧
      peek c' k = some (some v) ∧
      len c' = len c1 + 1 := by
  obtain ⟨c1, hroom, hwf1, hcap1, hlen1, hkv1, hsub1⟩ := ensure_room_spec hwf
  have hmiss1 : k ∉ c1.table.map Prod.fst := by
    have h0 : k ∉ c.table.map Prod.fst := tableContains_false_iff.mp hmiss
    exact fun hmem => h0 ((hsub1.map Prod.fst).subset hmem)
  have hstep : ∃ es, (match c1.first with
      | some e => listSet c1.entries e (fun en => { en with prev := some c1.entries.length })
      | none => some c1.entries) = some es ∧
      es.length = c1.entries.length ∧
      (∀ e' ∈ es, idxOk (c1.entries.length + 1) e'.prev ∧ idxOk c1.entries.length e'.next) ∧
      (∀ j : Nat, es[j]?.map keyVal = c1.entries[j]?.map keyVal) := by
    cases hf : c1.first with
    | none =>
      exact ⟨c1.entries, rfl, rfl,
        fun e' he' => ⟨idxOk_mono (Nat.le_succ _) (hwf1.2.2.2.1 e' he').1,
          (hwf1.2.2.2.1 e' he').2⟩,
        fun j => rfl⟩
    | some e =>
      have heb : e < c1.entries.length := by
        have h := hwf1.2.1
        rw [hf] at h
        exact h
      obtain ⟨es, hes⟩ :
          ∃ es, listSet c1.entries e
            (fun en => { en with prev := some c1.entries.length }) = some es :=
        Option.isSome_iff_exists.mp (listSet_isSome _ heb)
      refine ⟨es, hes, length_listSet hes, ?_, getElem?_listSet_map keyVal hes (fun a => rfl)⟩
      intro e' he'
      rcases mem_listSet hes he' with h | ⟨a, ha, rfl⟩
      · exact ⟨idxOk_mono (Nat.le_succ _) (hwf1.2.2.2.1 e' h).1, (hwf1.2.2.2.1 e' h).2⟩
      · exact ⟨Nat.lt_succ_self _, (hwf1.2.2.2.1 a ha).2⟩
  obtain ⟨es, hes, heslen, hesent, heskv⟩ := hstep
  refine ⟨c1,
    { table := tableInsertAL c1.table k c1.entries.length
      entries := es ++ [{ key := k, value := some v, next := c1.first, prev := none }]
      first := some c1.entries.length
      last := c1.last.or (some c1.entries.length)
      capacity := c1.capacity }, hroom, ?_, ?_, hcap1, ?_, ?_, ?_, ?_⟩
  · simp only [insert, hmiss, Bool.false_eq_true, if_false, hroom, hes]
  · refine ⟨?_, ?_, ?_, ?_, ?_, ?_⟩
    · intro p hp
      rw [tableInsertAL_of_not_mem _ hmiss1] at hp
      rcases List.mem_append.mp hp with hold | hnew
      · have hb := (hwf1.1 p hold).1
        refine ⟨?_, ?_⟩
        · simp only [List.length_append, List.length_cons, List.length_nil, heslen]
          exact Nat.lt_succ_of_lt hb
        · refine slotOk_of_getElem?_eq ?_
            (slotOk_congr heskv (hwf1.1 p hold).2)
          exact List.getElem?_append_left (heslen ▸ hb)
      · have hp2 : p = (k, c1.entries.length) := by simpa using hnew
        subst hp2
        refine ⟨?_, ?_⟩
        · simp only [List.length_append, List.length_cons, List.length_nil, heslen]
          exact Nat.lt_succ_self _
        · have hcat : (es ++ [({ key := k, value := some v, next := c1.first, prev := none } : CacheEntry K V)])[c1.entries.length]? = some { key := k, value := some v, next := c1.first, prev := none } := by
            rw [← heslen]
            exact List.getElem?_concat_length _ _
          show slotOk _ c1.entries.length
          unfold slotOk
          rw [hcat]
          rfl
    · show idxOk _ (some c1.entries.length)
      simp only [List.length_append, List.length_cons, List.length_nil, heslen]
      exact Nat.lt_succ_self _
    · cases hlast : c1.last with
      | none =>
        show idxOk _ (some c1.entries.length)
        simp only [List.length_append, List.length_cons, List.length_nil, heslen]
        exact Nat.lt_succ_self _
      | some l2 =>
        show idxOk _ (some l2)
        have h := hwf1.2.2.1
        rw [hlast] at h
        simp only [List.length_append, List.length_cons, List.length_nil, heslen]
        exact Nat.lt_succ_of_lt h
    · intro e he
      rcases List.mem_append.mp he with hold | hnew
      · have h := hesent e hold
        constructor
        · simp only [List.length_append, List.length_cons, List.length_nil, heslen]
          exact h.1
        · simp only [List.length_append, List.length_cons, List.length_nil, heslen]
          exact idxOk_mono (Nat.le_succ _) h.2
      · have he2 : e = { key := k, value := some v, next := c1.first, prev := none } := by
          simpa using hnew
        subst he2
        constructor
        · trivial
        · simp only [List.length_append, List.length_cons, List.length_nil, heslen]
          exact idxOk_mono (Nat.le_succ _) hwf1.2.1
    · rw [tableInsertAL_of_not_mem _ hmiss1, List.map_append]
      simp only [List.map_cons, List.map_nil]
      rw [List.nodup_append]
      refine ⟨hwf1.2.2.2.2.1, List.nodup_singleton _, ?_⟩
      rw [List.disjoint_singleton]
      exact hmiss1
    · rw [tableInsertAL_of_not_mem _ hmiss1, List.map_append]
      simp only [List.map_cons, List.map_nil]
      rw [List.nodup_append]
      refine ⟨hwf1.2.2.2.2.2, List.nodup_singleton _, ?_⟩
      rw [List.disjoint_singleton]
      intro hmem
      rcases List.mem_map.mp hmem with ⟨p, hp, hp2⟩
      exact Nat.lt_irrefl _ (hp2 ▸ (hwf1.1 p hp).1)
  · exact tableInsertAL_of_not_mem _ hmiss1
  · simp [heslen]
  · have hg : tableGet (tableInsertAL c1.table k c1.entries.length) k =
        some c1.entries.length := by
      rw [tableInsertAL_of_not_mem _ hmiss1]
      exact tableGet_append_not_mem _ hmiss1
    have hcat : (es ++ [({ key := k, value := some v, next := c1.first, prev := none } : CacheEntry K V)])[c1.entries.length]? = some { key := k, value := some v, next := c1.first, prev := none } := by
      rw [← heslen]
      exact List.getElem?_concat_length _ _
    unfold peek
    simp only [hg, hcat]
  · simp [len, tableInsertAL_of_not_mem _ hmiss1]

theorem tableRemove_length_present {t : List (K × Nat)} {k : K} {i : Nat}
    (h : tableGet t k = some i) : ((tableRemove t k).2).length + 1 = t.length := by
  induction t with
  | nil => simp [tableGet] at h
  | cons p rest ih =>
    obtain ⟨k', j⟩ := p
    by_cases hk : k' = k
    · simp [tableRemove, hk]
    · simp only [tableGet, hk, if_false] at h
      simp [tableRemove, hk, ih h]

theorem tableRemove_mem_ne {t : List (K × Nat)} {k : K} {i : Nat}
    (hfst : (t.map Prod.fst).Nodup) (hsnd : (t.map Prod.snd).Nodup)
    (hget : tableGet t k = some i) {p : K × Nat}
    (hp : p ∈ (tableRemove t k).2) : p ∈ t ∧ p.2 ≠ i := by
  have hmem : p ∈ t := tableRemove_sublist.subset hp
  refine ⟨hmem, ?_⟩
  intro hpi
  have hki : (k, i) ∈ t := tableGet_mem hget
  have hpk : p = (k, i) :=
    List.inj_on_of_nodup_map hsnd hmem hki (by simpa using hpi)
  have hknot : k ∉ ((tableRemove t k).2).map Prod.fst := by
    rw [map_fst_tableRemove]
    exact hfst.not_mem_erase
  exact hknot (List.mem_map.mpr ⟨p, hp, by rw [hpk]⟩)

/-- `remove` on an absent key returns `none` and leaves the cache unchanged. -/
theorem remove_absent {c : LRUCache K V} {k : K} (h : tableGet c.table k = none) :
    remove c k = some (none, c) := by
  have h0 : k ∉ c.table.map Prod.fst := tableGet_eq_none_iff.mp h
  simp only [remove, tableRemove_of_not_mem h0]

/-- `remove` on a present key of a well-formed cache: returns the stored value,
drops the key from the index, and leaves `first` (the head pointer), the
capacity and the arena length unchanged. -/
theorem remove_present_spec {c : LRUCache K V} {k : K} {i : Nat} (hwf : WF c)
    (hget : tableGet c.table k = some i) :
    ∃ v c', remove c k = some (some v, c') ∧ WF c' ∧
      c.entries[i]?.map CacheEntry.value = some (some v) ∧
      contains_key c' k = false ∧
      c'.first = c.first ∧ c'.capacity = c.capacity ∧
      c'.entries.length = c.entries.length ∧
      len c' + 1 = len c := by
  have hpair : tableRemove c.table k = (some i, (tableRemove c.table k).2) := by
    conv_lhs => rw [show tableRemove c.table k =
      ((tableRemove c.table k).1, (tableRemove c.table k).2) from rfl]
    rw [tableRemove_fst, hget]
  have hwfT : WF { c with table := (tableRemove c.table k).2 } := by
    obtain ⟨w1, w2, w3, w4, w5, w6⟩ := hwf
    exact ⟨fun p hp => w1 p (tableRemove_sublist.subset hp), w2, w3, w4,
      (tableRemove_sublist.map Prod.fst).nodup w5,
      (tableRemove_sublist.map Prod.snd).nodup w6⟩
  have hi : i < c.entries.length := (hwf.1 _ (tableGet_mem hget)).1
  obtain ⟨c1, hrfl, hwf1, ht1, hf1, hcap1, hlen1, hkv1⟩ :=
    remove_from_list_spec hwfT (show i <
      ({ c with table := (tableRemove c.table k).2 } : LRUCache K V).entries.length from hi)
  have hgetc : c.entries[i]? = some c.entries[i] := List.getElem?_eq_getElem hi
  obtain ⟨v, hv⟩ : ∃ v, (c.entries[i]).value = some v := by
    have hs := (hwf.1 _ (tableGet_mem hget)).2
    unfold slotOk at hs
    rw [hgetc] at hs
    exact Option.isSome_iff_exists.mp hs
  have hi1 : i < c1.entries.length := hlen1.symm ▸ hi
  have hget1 : c1.entries[i]? = some c1.entries[i] := List.getElem?_eq_getElem hi1
  have hval1 : (c1.entries[i]).value = some v := by
    have h := hkv1 i
    rw [hget1, hgetc] at h
    rw [keyVal_value_eq (Option.some.inj h)]
    exact hv
  obtain ⟨es, hes⟩ :
      ∃ es, listSet c1.entries i (fun en => { en with value := none }) = some es :=
    Option.isSome_iff_exists.mp (listSet_isSome _ hi1)
  have heslen : es.length = c1.entries.length := length_listSet hes
  have hknot : k ∉ ((tableRemove c.table k).2).map Prod.fst := by
    rw [map_fst_tableRemove]
    exact hwf.2.2.2.2.1.not_mem_erase
  refine ⟨v, { c1 with entries := es }, ?_, ?_, ?_, ?_, ?_, hcap1, heslen.trans hlen1, ?_⟩
  · obtain ⟨t2, ht2⟩ : ∃ t2, (tableRemove c.table k).2 = t2 := ⟨_, rfl⟩
    rw [ht2] at hpair hrfl
    simp only [remove, hpair, hrfl, hget1, hval1, hes]
  · obtain ⟨w1, w2, w3, w4, w5, w6⟩ := hwf1
    refine ⟨?_, idxOk_of_eq heslen.symm w2, idxOk_of_eq heslen.symm w3, ?_, w5, w6⟩
    · intro p hp
      have hpT := ht1 ▸ hp
      have hpne : p ∈ c.table ∧ p.2 ≠ i :=
        tableRemove_mem_ne hwf.2.2.2.2.1 hwf.2.2.2.2.2 hget hpT
      refine ⟨heslen ▸ (w1 p hp).1,
        slotOk_of_getElem?_eq (getElem?_listSet_ne hes (fun hh => hpne.2 hh.symm))
          (w1 p hp).2⟩
    · intro e he
      rcases mem_listSet hes he with h | ⟨a, ha, rfl⟩
      · exact entryOk_of_eq heslen.symm (w4 e h)
      · exact entryOk_of_eq heslen.symm (w4 a ha)
  · rw [hgetc]
    simp only [Option.map_some']
    rw [hv]
  · show tableContains c1.table k = false
    rw [ht1]
    exact tableContains_false_iff.mpr hknot
  · show c1.first = c.first
    rw [hf1]
  · show c1.table.length + 1 = c.table.length
    rw [ht1]
    exact tableRemove_length_present hget

/-- The link surgery `remove` performs on a present key, lifted from
`remove_from_list_links` through the final value-taking step (which touches
only the removed slot's `value` field): with a predecessor, the neighbors are
re-linked and `last` moves to the predecessor when the removed entry was the
tail; at the front, every slot other than the removed one — in particular the
successor with its `prev` link — and `last` are left exactly as they were. -/
theorem remove_present_links {c : LRUCache K V} {k : K} {i : Nat}
    {e : CacheEntry K V} (hwf : WF c) (hget : tableGet c.table k = some i)
    (he : c.entries[i]? = some e) :
    ∃ v c', remove c k = some (some v, c') ∧
      (∀ j : Nat, e.prev = some j → e.next = none →
        c'.last = some j ∧ (c'.entries[j]?).map CacheEntry.next = some none) ∧
      (∀ j k2 : Nat, e.prev = some j → e.next = some k2 →
        c'.last = c.last ∧
        (c'.entries[j]?).map CacheEntry.next = some (some k2) ∧
        (c'.entries[k2]?).map CacheEntry.prev = some (some j)) ∧
      (e.prev = none →
        c'.last = c.last ∧
        (∀ j2 : Nat, j2 ≠ i → c'.entries[j2]? = c.entries[j2]?)) := by
  have hpair : tableRemove c.table k = (some i, (tableRemove c.table k).2) := by
    conv_lhs => rw [show tableRemove c.table k =
      ((tableRemove c.table k).1, (tableRemove c.table k).2) from rfl]
    rw [tableRemove_fst, hget]
  have hwfT : WF { c with table := (tableRemove c.table k).2 } := by
    obtain ⟨w1, w2, w3, w4, w5, w6⟩ := hwf
    exact ⟨fun p hp => w1 p (tableRemove_sublist.subset hp), w2, w3, w4,
      (tableRemove_sublist.map Prod.fst).nodup w5,
      (tableRemove_sublist.map Prod.snd).nodup w6⟩
  have hi : i < c.entries.length := (hwf.1 _ (tableGet_mem hget)).1
  obtain ⟨c1, hrfl, hwf1, ht1, hf1, hcap1, hlen1, hkv1⟩ :=
    remove_from_list_spec hwfT (show i <
      ({ c with table := (tableRemove c.table k).2 } : LRUCache K V).entries.length from hi)
  have heT : ({ c with table := (tableRemove c.table k).2 } :
      LRUCache K V).entries[i]? = some e := he
  have hlinks := remove_from_list_links heT hrfl
  have hi1 : i < c1.entries.length := hlen1.symm ▸ hi
  have hget1 : c1.entries[i]? = some c1.entries[i] := List.getElem?_eq_getElem hi1
  obtain ⟨v, hv⟩ : ∃ v, e.value = some v := by
    have hs := (hwf.1 _ (tableGet_mem hget)).2
    unfold slotOk at hs
    rw [he] at hs
    exact Option.isSome_iff_exists.mp hs
  have hval1 : (c1.entries[i]).value = some v := by
    have h := hkv1 i
    rw [hget1, he] at h
    rw [keyVal_value_eq (Option.some.inj h)]
    exact hv
  obtain ⟨es, hes⟩ :
      ∃ es, listSet c1.entries i (fun en => { en with value := none }) = some es :=
    Option.isSome_iff_exists.mp (listSet_isSome _ hi1)
  have hnextmap : ∀ j : Nat, es[j]?.map CacheEntry.next =
      c1.entries[j]?.map CacheEntry.next :=
    getElem?_listSet_map CacheEntry.next hes (fun a => rfl)
  have hprevmap : ∀ j : Nat, es[j]?.map CacheEntry.prev =
      c1.entries[j]?.map CacheEntry.prev :=
    getElem?_listSet_map CacheEntry.prev hes (fun a => rfl)
  refine ⟨v, { c1 with entries := es }, ?_, ?_, ?_, ?_⟩
  · obtain ⟨t2, ht2⟩ : ∃ t2, (tableRemove c.table k).2 = t2 := ⟨_, rfl⟩
    rw [ht2] at hpair hrfl
    simp only [remove, hpair, hrfl, hget1, hval1, hes]
  · intro j hj hn2
    obtain ⟨hl, hnx⟩ := hlinks.1 j hj hn2
    exact ⟨hl, (hnextmap j).trans hnx⟩
  · intro j k2 hj hk2
    obtain ⟨hl, hnx, hpv⟩ := hlinks.2.1 j k2 hj hk2
    exact ⟨hl, (hnextmap j).trans hnx, (hprevmap k2).trans hpv⟩
  · intro hpn
    have hcT := hlinks.2.2 hpn
    constructor
    · show c1.last = c.last
      rw [hcT]
    · intro j2 hj2
      show es[j2]? = c.entries[j2]?
      rw [getElem?_listSet_ne hes (fun hh => hj2 hh.symm), hcT]

theorem tableContains_some {t : List (K × Nat)} {k : K}
    (h : tableContains t k = true) : ∃ i, tableGet t k = some i :=
  Option.isSome_iff_exists.mp h

/-- `peek` never panics on a well-formed cache. -/
theorem peek_isSome {c : LRUCache K V} (hwf : WF c) (k : K) :
    (peek c k).isSome = true := by
  unfold peek
  cases hg : tableGet c.table k with
  | none => rfl
  | some i =>
    have hi : i < c.entries.length := (hwf.1 _ (tableGet_mem hg)).1
    show (match c.entries[i]? with
      | none => none
      | some e => some (e.value)).isSome = true
    rw [List.getElem?_eq_getElem hi]
    rfl

/-- `peek` only looks at the table and the stored key/value pairs. -/
theorem peek_congr {c c' : LRUCache K V} (ht : c'.table = c.table)
    (hkv : ∀ j : Nat, c'.entries[j]?.map keyVal = c.entries[j]?.map keyVal)
    (k : K) : peek c' k = peek c k := by
  unfold peek
  rw [ht]
  cases hg : tableGet c.table k with
  | none => rfl
  | some i =>
    have h := hkv i
    show (match c'.entries[i]? with
      | none => none
      | some e => some (e.value)) =
      (match c.entries[i]? with
      | none => none
      | some e => some (e.value))
    cases h1 : c'.entries[i]? with
    | none =>
      rw [h1] at h
      cases h2 : c.entries[i]? with
      | none => rfl
      | some e => rw [h2] at h; simp at h
    | some e' =>
      rw [h1] at h
      cases h2 : c.entries[i]? with
      | none => rw [h2] at h; simp at h
      | some e =>
        rw [h2] at h
        simp only [Option.map_some'] at h
        show some (e'.value) = some (e.value)
        rw [keyVal_value_eq (Option.some.inj h)]

/-- `get` never panics on a well-formed cache, and returns exactly what `peek`
on the pre-state returns. -/
theorem get_spec {c : LRUCache K V} (hwf : WF c) (k : K) :
    ∃ r c', get c k = some (r, c') ∧ WF c' ∧ peek c k = some r ∧
      c'.table = c.table := by
  cases hcont : contains_key c k with
  | false =>
    obtain ⟨r, hr⟩ := Option.isSome_iff_exists.mp (peek_isSome hwf k)
    exact ⟨r, c, by simp only [get, hcont, Bool.false_eq_true, if_false, hr], hwf, hr, rfl⟩
  | true =>
    obtain ⟨i, hi⟩ := tableContains_some hcont
    obtain ⟨c1, hacc, hwf1, ht1, hcap1, hlen1, hkv1, hfirst1⟩ := access_spec hwf hi
    have hpk : peek c1 k = peek c k := peek_congr ht1 hkv1 k
    obtain ⟨r, hr⟩ := Option.isSome_iff_exists.mp (peek_isSome hwf k)
    refine ⟨r, c1, ?_, hwf1, hr, ht1⟩
    rw [hr] at hpk
    simp only [get, hcont, if_true, hacc, hpk]

/-- `get_mut` never panics on a well-formed cache, and returns exactly what
`peek` on the pre-state returns. -/
theorem get_mut_spec {c : LRUCache K V} (hwf : WF c) (k : K) :
    ∃ r c', get_mut c k = some (r, c') ∧ WF c' ∧ peek c k = some r ∧
      c'.table = c.table := by
  cases hcont : contains_key c k with
  | false =>
    have hg : tableGet c.table k = none := by
      cases hg2 : tableGet c.table k with
      | none => rfl
      | some i =>
        exfalso
        have hT : tableContains c.table k = true := by
          unfold tableContains
          rw [hg2]
          rfl
        have hF : tableContains c.table k = false := hcont
        exact Bool.noConfusion (hT.symm.trans hF)
    refine ⟨none, c, ?_, hwf, ?_, rfl⟩
    · simp only [get_mut, hcont, Bool.false_eq_true, if_false, hg]
    · unfold peek
      rw [hg]
  | true =>
    obtain ⟨i, hi⟩ := tableContains_some hcont
    obtain ⟨c1, hacc, hwf1, ht1, hcap1, hlen1, hkv1, hfirst1⟩ := access_spec hwf hi
    have hti : tableGet c1.table k = some i := by rw [ht1]; exact hi
    have hi0 : i < c.entries.length := (hwf.1 _ (tableGet_mem hi)).1
    have hi1 : i < c1.entries.length := hlen1.symm ▸ hi0
    have hget1 : c1.entries[i]? = some c1.entries[i] := List.getElem?_eq_getElem hi1
    have hget0 : c.entries[i]? = some c.entries[i] := List.getElem?_eq_getElem hi0
    have hpk : peek c k = some ((c1.entries[i]).value) := by
      unfold peek
      rw [hi]
      show (match c.entries[i]? with
        | none => none
        | some e => some (e.value)) = some ((c1.entries[i]).value)
      rw [hget0]
      show some ((c.entries[i]).value) = some ((c1.entries[i]).value)
      have h := hkv1 i
      rw [hget1, hget0] at h
      rw [keyVal_value_eq (Option.some.inj h)]
    refine ⟨(c1.entries[i]).value, c1, ?_, hwf1, hpk, ht1⟩
    simp only [get_mut, hcont, if_true, hacc, hti, hget1]

/-- The empty cache is well-formed, for every capacity. -/
theorem WF_new (cap : Nat) : WF (new cap : LRUCache K V) :=
  ⟨by simp [new], trivial, trivial, by simp [new], by simp [new], by simp [new]⟩

/-- Every reachable cache state is well-formed. -/
theorem WF_reachable {c : LRUCache K V} (h : Reachable c) : WF c := by
  induction h with
  | init cap => exact WF_new cap
  | insert_step hr he ih =>
    rename_i c0 k v r c1
    cases hg : tableGet c0.table k with
    | some i =>
      obtain ⟨c'', heq, hwf'', _⟩ := insert_present_spec ih hg v
      rw [he] at heq
      have h2 : c1 = c'' := congrArg Prod.snd (Option.some.inj heq)
      rw [h2]
      exact hwf''
    | none =>
      have hmiss : tableContains c0.table k = false := by
        unfold tableContains
        rw [hg]
        rfl
      obtain ⟨cm, c'', hroom, heq, hwf'', _⟩ := insert_miss_spec ih hmiss v
      rw [he] at heq
      have h2 : c1 = c'' := congrArg Prod.snd (Option.some.inj heq)
      rw [h2]
      exact hwf''
  | remove_step hr he ih =>
    rename_i c0 k r c1
    cases hg : tableGet c0.table k with
    | some i =>
      obtain ⟨v, c'', heq, hwf'', _⟩ := remove_present_spec ih hg
      rw [he] at heq
      have h2 : c1 = c'' := congrArg Prod.snd (Option.some.inj heq)
      rw [h2]
      exact hwf''
    | none =>
      have heq := remove_absent (c := c0) (k := k) hg
      rw [he] at heq
      have h2 : c1 = c0 := congrArg Prod.snd (Option.some.inj heq)
      rw [h2]
      exact ih
  | get_step hr he ih =>
    rename_i c0 k r c1
    obtain ⟨r', c'', heq, hwf'', _⟩ := get_spec ih k
    rw [he] at heq
    have h2 : c1 = c'' := congrArg Prod.snd (Option.some.inj heq)
    rw [h2]
    exact hwf''
  | get_mut_step hr he ih =>
    rename_i c0 k r c1
    obtain ⟨r', c'', heq, hwf'', _⟩ := get_mut_spec ih k
    rw [he] at heq
    have h2 : c1 = c'' := congrArg Prod.snd (Option.some.inj heq)
    rw [h2]
    exact hwf''

/-! ### The first insert, the hit path, and the capacity-0 cache -/

/-- The first insert into a fresh cache of any capacity (including 0) lands and
stays: `ensure_room` finds nothing to evict. -/
theorem insert_new (cap : Nat) (k : K) (v : V) :
    insert (new cap : LRUCache K V) k v = some (none, singletonCache cap k v) := by
  cases cap with
  | zero => rfl
  | succ n => rfl

theorem WF_singletonCache (cap : Nat) (k : K) (v : V) :
    WF (singletonCache cap k v) := by
  refine ⟨?_, ?_, ?_, ?_, ?_, ?_⟩
  · intro p hp
    have hp2 : p = (k, 0) := by simpa [singletonCache] using hp
    subst hp2
    exact ⟨by simp [singletonCache], by simp [singletonCache, slotOk]⟩
  · show idxOk _ (some 0)
    simp [singletonCache, idxOk]
  · show idxOk _ (some 0)
    simp [singletonCache, idxOk]
  · intro e he
    have he2 : e = { key := k, value := some v, next := none, prev := none } := by
      simpa [singletonCache] using he
    subst he2
    exact ⟨trivial, trivial⟩
  · simp [singletonCache]
  · simp [singletonCache]

/-- A request for the single cached key is a pure hit: it serves the stored
blob, leaves the cache unchanged, and does not invoke `compute`. -/
theorem serve_image_hit (cap : Nat) (k : K) (v : V) (fe : Bool)
    (cp : Except String V) :
    serve_image (singletonCache cap k v) k fe cp =
      some (.served v, singletonCache cap k v, false) := by
  have hcont : contains_key (singletonCache cap k v) k = true := by
    simp [contains_key, tableContains, tableGet, singletonCache]
  have hacc : access (singletonCache cap k v) k = some (singletonCache cap k v) := by
    simp [access, tableGet, singletonCache, remove_from_list, listSet]
  have hpeek : peek (singletonCache cap k v) k = some (some v) := by
    simp [peek, tableGet, singletonCache]
  have hget : get (singletonCache cap k v) k = some (some v, singletonCache cap k v) := by
    simp only [get, contains_key] at *
    simp only [hcont, if_true, hacc, hpeek]
  simp only [serve_image, hcont, if_true, hget]

theorem serveN_hit (cap : Nat) (k : K) (v : V) (fe : Bool)
    (cp : Except String V) :
    ∀ n : Nat, serveN (singletonCache cap k v) k fe cp n =
      some (singletonCache cap k v, 0) := by
  intro n
  induction n with
  | zero => rfl
  | succ m ih =>
    show serveN _ _ _ _ (m + 1) = _
    simp [serveN, serve_image_hit, ih]

/-- A miss on a fresh cache with a successful compute: `compute` is invoked,
the blob is stored and served, and the state becomes the singleton cache. -/
theorem serve_image_new_miss (cap : Nat) (k : K) (v : V) :
    serve_image (new cap : LRUCache K V) k true (Except.ok v) =
      some (.served v, singletonCache cap k v, true) := by
  have hcont : contains_key (new cap : LRUCache K V) k = false := rfl
  have hacc : access (singletonCache cap k v) k = some (singletonCache cap k v) := by
    simp [access, tableGet, singletonCache, remove_from_list, listSet]
  have hpeek : peek (singletonCache cap k v) k = some (some v) := by
    simp [peek, tableGet, singletonCache]
  have hcont1 : contains_key (singletonCache cap k v) k = true := by
    simp [contains_key, tableContains, tableGet, singletonCache]
  have hget : get (singletonCache cap k v) k = some (some v, singletonCache cap k v) := by
    simp only [get, contains_key] at *
    simp only [hcont1, if_true, hacc, hpeek]
  simp [serve_image, hcont, insert_new, hget]

/-- One step of the capacity-0 invariant. -/
theorem c3_step {c : LRUCache K V} {S : Finset K} (h : C3Inv c S) (k : K) (v : V) :
    ∃ r c', insert c k v = some (r, c') ∧ C3Inv c' (Insert.insert k S) := by
  obtain ⟨hwf, hcap, hlen, hmem, hcard⟩ := h
  cases hg : tableGet c.table k with
  | some i =>
    have hkS : k ∈ S := by
      rw [← hmem k]
      show tableContains c.table k = true
      unfold tableContains
      rw [hg]
      rfl
    obtain ⟨c', heq, hwf', ht', hcap', hlen', hpeek'⟩ := insert_present_spec hwf hg v
    refine ⟨_, c', heq, hwf', by rw [hcap']; exact hcap, ?_, ?_, ?_⟩
    · show 1 ≤ c'.table.length
      rw [ht']
      exact hlen
    · intro k'
      show tableContains c'.table k' = true ↔ _
      rw [ht', Finset.insert_eq_self.mpr hkS]
      exact hmem k'
    · show c'.table.length = _
      rw [ht', Finset.insert_eq_self.mpr hkS]
      exact hcard
  | none =>
    have hmiss : tableContains c.table k = false := by
      unfold tableContains
      rw [hg]
      rfl
    have hkS : k ∉ S := by
      rw [← hmem k]
      intro hc
      have : tableContains c.table k = true := hc
      rw [hmiss] at this
      exact Bool.noConfusion this
    have hne : ¬c.capacity = len c := by
      rw [hcap]
      intro h0
      rw [← h0] at hlen
      exact Nat.not_succ_le_zero 0 hlen
    obtain ⟨c1, c', hroom, heq, hwf', hcap', ht', hlen', hpeek', hlentbl⟩ :=
      insert_miss_spec hwf hmiss v
    have hc1 : c1 = c := by
      have h0 := ensure_room_noop hne
      rw [h0] at hroom
      exact (Option.some.inj hroom).symm
    rw [hc1] at ht'
    refine ⟨_, c', heq, hwf', by rw [hcap']; exact hcap, ?_, ?_, ?_⟩
    · show 1 ≤ c'.table.length
      rw [ht']
      simp
    · intro k'
      show tableContains c'.table k' = true ↔ _
      rw [ht', Finset.mem_insert]
      constructor
      · intro hc
        rcases tableContains_append_single.mp hc with h1 | h1
        · exact Or.inr ((hmem k').mp h1)
        · exact Or.inl h1
      · rintro (rfl | h1)
        · exact tableContains_append_single.mpr (Or.inr rfl)
        · exact tableContains_append_single.mpr (Or.inl ((hmem k').mpr h1))
    · show c'.table.length = _
      rw [ht']
      rw [Finset.card_insert_of_not_mem hkS]
      simp only [List.length_append, List.length_cons, List.length_nil]
      have hcard2 : c.table.length = S.card := hcard
      rw [hcard2]

/-- Running any insert sequence on a cache satisfying the capacity-0 invariant
succeeds and extends the key set by the inserted keys. -/
theorem c3_run (ops : List (K × V)) :
    ∀ {c : LRUCache K V} {S : Finset K}, C3Inv c S →
    ∃ c', runInserts c ops = some c' ∧
      C3Inv c' (S ∪ (ops.map Prod.fst).toFinset) := by
  induction ops with
  | nil =>
    intro c S h
    exact ⟨c, rfl, by simpa using h⟩
  | cons p rest ih =>
    intro c S h
    obtain ⟨k, v⟩ := p
    obtain ⟨r, c1, he, h1⟩ := c3_step h k v
    obtain ⟨c', hrun, h'⟩ := ih h1
    refine ⟨c', ?_, ?_⟩
    · show runInserts c ((k, v) :: rest) = some c'
      simp only [runInserts, he]
      exact hrun
    · have hset : S ∪ (((k, v) :: rest).map Prod.fst).toFinset =
          Insert.insert k S ∪ (rest.map Prod.fst).toFinset := by
        ext x
        simp only [List.map_cons, List.toFinset_cons, Finset.mem_union,
          Finset.mem_insert]
        tauto
      rw [hset]
      exact h'

/-! ### Claim theorems -/

/-- C1: the spec claims `len() <= capacity` after every insert; the code
violates it.  In a capacity-1 cache, inserting three distinct keys leaves
`len() = 2`: evicting the second key leaves `last` pointing at the first key's
tombstoned slot (the front case of `remove_from_list` is a no-op), so the
third eviction removes a key that is no longer in the index and the bound
breaks.  This theorem evaluates the code at that failing input. -/
theorem c1_capacity_bound_violated :
    ((runInserts (new 1 : LRUCache Nat Nat) [(1, 10), (2, 20), (3, 30)]).map
      fun c => (len c, c.capacity)) = some (2, 1) := by
  rfl

/-- C2: the spec claims every operation preserves the list invariants, among
them `head == None` iff the cache is empty iff `tail == None`.  The code
violates this: inserting one key into a capacity-2 cache and removing it
leaves an empty cache (`is_empty = true`) whose `first` and `last` still point
at the tombstoned slot 0, because `remove_from_list` does nothing when the
removed entry is at the front.  This theorem evaluates the code at that
failing input. -/
theorem c2_structural_invariant_violated :
    (((insert (new 2 : LRUCache Nat Nat) 1 10).bind fun p => remove p.2 1).map
      fun p => (p.1, is_empty p.2, p.2.first, p.2.last)) =
      some (some 10, true, some 0, some 0) := by
  rfl

/-- C3 counterexample: the spec claims a capacity-0 cache immediately evicts
everything inserted, so after any insert sequence it is empty.  In fact after
`insert 1 10` into a capacity-0 cache, `len() = 1` and `contains_key 1` holds:
`ensure_room` evicts only when `len() == capacity`, which at capacity 0 means
only when the cache is already empty and there is nothing to evict. -/
theorem c3_capacity0_counterexample :
    ((runInserts (new 0 : LRUCache Nat Nat) [(1, 10)]).map
      fun c => (len c, contains_key c 1)) = some (1, true) := by
  rfl

/-- C3 (amended): a capacity-0 cache never evicts.  Every insert succeeds with
no error, every inserted key is still present afterwards, and `len()` equals
the number of distinct inserted keys — the cache degenerates to an unbounded
map, not to immediate eviction. -/
theorem c3_capacity0_never_evicts (ops : List (K × V)) :
    ∃ c', runInserts (new 0 : LRUCache K V) ops = some c' ∧
      (∀ k ∈ ops.map Prod.fst, contains_key c' k = true) ∧
      len c' = (ops.map Prod.fst).toFinset.card := by
  cases ops with
  | nil => exact ⟨new 0, rfl, by simp, by simp [len, new]⟩
  | cons p rest =>
    obtain ⟨k, v⟩ := p
    have h1 : C3Inv (singletonCache 0 k v : LRUCache K V) {k} := by
      refine ⟨WF_singletonCache 0 k v, rfl, by simp [len, singletonCache], ?_,
        by simp [len, singletonCache]⟩
      intro k'
      by_cases hk : k = k'
      · subst hk
        simp [contains_key, tableContains, tableGet, singletonCache]
      · have hk2 : ¬k' = k := fun h => hk h.symm
        simp [contains_key, tableContains, tableGet, singletonCache, hk, hk2]
    obtain ⟨c', hrun, hinv⟩ := c3_run rest h1
    refine ⟨c', ?_, ?_, ?_⟩
    · show runInserts (new 0) ((k, v) :: rest) = some c'
      simp only [runInserts, insert_new]
      exact hrun
    · intro k' hk'
      rw [hinv.2.2.2.1 k']
      simp only [List.map_cons, List.mem_cons] at hk'
      rcases hk' with rfl | h
      · simp
      · simp [List.mem_toFinset, h]
    · rw [hinv.2.2.2.2]
      congr 1
      ext x
      simp [List.toFinset_cons]

/-- C3 witness: the amended statement at a concrete insert sequence. -/
theorem c3_capacity0_never_evicts_witness :
    ∃ c', runInserts (new 0 : LRUCache Nat Nat) [(1, 10), (2, 20), (1, 30)] = some c' ∧
      (∀ k ∈ [(1, 10), (2, 20), (1, 30)].map (Prod.fst (β := Nat)), contains_key c' k = true) ∧
      len c' = ([(1, 10), (2, 20), (1, 30)].map (Prod.fst (β := Nat))).toFinset.card :=
  c3_capacity0_never_evicts [(1, 10), (2, 20), (1, 30)]

/-- C4: strict LRU eviction with `get` counting as a use.  For any three
distinct keys: inserting `A, B, C` into a capacity-2 cache evicts `A`
(afterwards only `B` and `C` are present); and with `A` then `B` present,
calling `get A` and then inserting `C` evicts `B`, not `A`. -/
theorem c4_lru_eviction_order (A B C : K) (vA vB vC : V)
    (hAB : A ≠ B) (hAC : A ≠ C) (hBC : B ≠ C) :
    ((runInserts (new 2 : LRUCache K V) [(A, vA), (B, vB), (C, vC)]).map
      fun c => (contains_key c A, contains_key c B, contains_key c C)) =
      some (false, true, true) ∧
    (((runInserts (new 2 : LRUCache K V) [(A, vA), (B, vB)]).bind
      (fun c => get c A) |>.bind fun p => insert p.2 C vC).map
      fun p => (contains_key p.2 A, contains_key p.2 B, contains_key p.2 C)) =
      some (true, false, true) := by
  constructor
  · simp [runInserts, insert, ensure_room, remove_last, remove_from_list, access,
      tableGet, tableContains, tableInsertAL, tableRemove, listSet, len,
      contains_key, peek, get, new, hAB, hAC, hBC,
      Ne.symm hAB, Ne.symm hAC, Ne.symm hBC]
  · simp [runInserts, insert, ensure_room, remove_last, remove_from_list, access,
      tableGet, tableContains, tableInsertAL, tableRemove, listSet, len,
      contains_key, peek, get, new, hAB, hAC, hBC,
      Ne.symm hAB, Ne.symm hAC, Ne.symm hBC]

/-- C4 witness: the two scenarios at concrete distinct keys. -/
theorem c4_lru_eviction_order_witness :
    ((runInserts (new 2 : LRUCache Nat Nat) [(1, 10), (2, 20), (3, 30)]).map
      fun c => (contains_key c 1, contains_key c 2, contains_key c 3)) =
      some (false, true, true) ∧
    (((runInserts (new 2 : LRUCache Nat Nat) [(1, 10), (2, 20)]).bind
      (fun c => get c 1) |>.bind fun p => insert p.2 3 30).map
      fun p => (contains_key p.2 1, contains_key p.2 2, contains_key p.2 3)) =
      some (true, false, true) :=
  c4_lru_eviction_order 1 2 3 10 20 30 (by decide) (by decide) (by decide)

/-- C5 counterexample: the spec claims `remove` excises the entry from the
list, re-linking its neighbors and updating `head`/`tail` when the removed
entry was a boundary.  Removing the most-recent key `2` from a capacity-2
cache holding `1` then `2` removes it from the index (`contains_key` is false,
the value `20` is returned, the slot's value is taken), but the list is not
touched: `head` still points at the excised slot 1, and the successor in
slot 0 still has `prev = Some 1`, pointing back at the excised slot — the
front case of `remove_from_list` updates nothing, so neither `head` nor the
successor's `prev` link is re-linked. -/
theorem c5_remove_head_stale :
    (((runInserts (new 2 : LRUCache Nat Nat) [(1, 10), (2, 20)]).bind
      fun c => remove c 2).map
      fun p => (p.1, contains_key p.2 2, p.2.first,
        (p.2.entries[0]?).map CacheEntry.prev,
        (p.2.entries[1]?).map CacheEntry.value)) =
      some (some 20, false, some 1, some (some 1), some none) := by
  rfl

/-- C5 (amended): `remove` on an absent key returns `none` and leaves the
cache unchanged.  `remove` on a present key returns the stored value and
excises the entry from the index, so `contains_key` is false afterwards; when
the removed entry had a predecessor the list is re-linked and `tail` is
updated — an entry at the end moves `tail` to the predecessor and clears the
predecessor's `next`, a middle entry joins `predecessor.next` to the successor
and `successor.prev` to the predecessor with `tail` untouched — but `head` is
never updated (`first` is always unchanged), and when the removed entry was at
the front nothing in the list changes at all: `tail` and every other slot,
in particular the successor with its stale `prev` link, are left exactly as
they were. -/
theorem c5_remove_amended (c : LRUCache K V) (k : K) :
    (tableGet c.table k = none → remove c k = some (none, c)) ∧
    (∀ (i : Nat) (e : CacheEntry K V), WF c → tableGet c.table k = some i →
      c.entries[i]? = some e →
      ∃ v c', remove c k = some (some v, c') ∧ e.value = some v ∧
        contains_key c' k = false ∧ WF c' ∧
        c'.first = c.first ∧ c'.capacity = c.capacity ∧
        c'.entries.length = c.entries.length ∧
        (∀ j : Nat, e.prev = some j → e.next = none →
          c'.last = some j ∧ (c'.entries[j]?).map CacheEntry.next = some none) ∧
        (∀ j k2 : Nat, e.prev = some j → e.next = some k2 →
          c'.last = c.last ∧
          (c'.entries[j]?).map CacheEntry.next = some (some k2) ∧
          (c'.entries[k2]?).map CacheEntry.prev = some (some j)) ∧
        (e.prev = none →
          c'.last = c.last ∧
          (∀ j2 : Nat, j2 ≠ i → c'.entries[j2]? = c.entries[j2]?))) := by
  constructor
  · exact remove_absent
  · intro i e hwf hget he
    obtain ⟨v, cA, heqA, hwfA, hvalA, hcontA, hfA, hcapA, hlenA, _⟩ :=
      remove_present_spec hwf hget
    obtain ⟨v2, cB, heqB, hlinks⟩ := remove_present_links hwf hget he
    rw [heqA] at heqB
    have hpairAB := Option.some.inj heqB
    have hcc : cA = cB := congrArg Prod.snd hpairAB
    have hev : e.value = some v := by
      rw [he] at hvalA
      simp only [Option.map_some'] at hvalA
      exact Option.some.inj hvalA
    refine ⟨v, cA, heqA, hev, hcontA, hwfA, hfA, hcapA, hlenA, ?_, ?_, ?_⟩
    · intro j h1 h2
      rw [hcc]
      exact hlinks.1 j h1 h2
    · intro j k2 h1 h2
      rw [hcc]
      exact hlinks.2.1 j k2 h1 h2
    · intro h1
      rw [hcc]
      exact hlinks.2.2 h1

/-- C5 witness: both branches of the amended statement at concrete inputs —
removal of an absent key from a fresh cache, and removal of the tail key `1`
(whose entry has predecessor slot 1) from the two-entry cache holding `1`
then `2`, exercising the tail-update and re-link conjuncts. -/
theorem c5_remove_amended_witness :
    remove (new 2 : LRUCache Nat Nat) 5 = some (none, new 2) ∧
    (∃ v c', remove (pairCache 1 2 10 20 : LRUCache Nat Nat) 1 = some (some v, c') ∧
      ({ key := 1, value := some 10, next := none, prev := some 1 } :
        CacheEntry Nat Nat).value = some v ∧
      contains_key c' 1 = false ∧ WF c' ∧
      c'.first = (pairCache 1 2 10 20 : LRUCache Nat Nat).first ∧
      c'.capacity = (pairCache 1 2 10 20 : LRUCache Nat Nat).capacity ∧
      c'.entries.length = (pairCache 1 2 10 20 : LRUCache Nat Nat).entries.length ∧
      (∀ j : Nat, ({ key := 1, value := some 10, next := none, prev := some 1 } :
          CacheEntry Nat Nat).prev = some j →
        ({ key := 1, value := some 10, next := none, prev := some 1 } :
          CacheEntry Nat Nat).next = none →
        c'.last = some j ∧ (c'.entries[j]?).map CacheEntry.next = some none) ∧
      (∀ j k2 : Nat, ({ key := 1, value := some 10, next := none, prev := some 1 } :
          CacheEntry Nat Nat).prev = some j →
        ({ key := 1, value := some 10, next := none, prev := some 1 } :
          CacheEntry Nat Nat).next = some k2 →
        c'.last = (pairCache 1 2 10 20 : LRUCache Nat Nat).last ∧
        (c'.entries[j]?).map CacheEntry.next = some (some k2) ∧
        (c'.entries[k2]?).map CacheEntry.prev = some (some j)) ∧
      (({ key := 1, value := some 10, next := none, prev := some 1 } :
          CacheEntry Nat Nat).prev = none →
        c'.last = (pairCache 1 2 10 20 : LRUCache Nat Nat).last ∧
        (∀ j2 : Nat, j2 ≠ 0 →
          c'.entries[j2]? = (pairCache 1 2 10 20 : LRUCache Nat Nat).entries[j2]?))) :=
  ⟨(c5_remove_amended (new 2) 5).1 rfl,
   (c5_remove_amended (pairCache 1 2 10 20) 1).2 0
     { key := 1, value := some 10, next := none, prev := some 1 }
     (by decide) rfl rfl⟩

/-- C6: `peek` and `contains_key` are pure lookups — in the source neither
performs any assignment, so in this embedding each is a function of the state
returning only a value and the state used afterwards is the very same one.
Consequently they never promote: with capacity 2 and distinct keys `A` then
`B` present, `peek A` returns `A`'s value, and inserting `C` into that same
unchanged state evicts `A`, not `B`. -/
theorem c6_peek_never_promotes (A B C : K) (vA vB vC : V)
    (hAB : A ≠ B) (hAC : A ≠ C) (hBC : B ≠ C) :
    (((runInserts (new 2 : LRUCache K V) [(A, vA), (B, vB)]).bind
      (fun c => (peek c A).map fun r => (r, contains_key c A, c)) |>.bind
      fun p => (insert p.2.2 C vC).map
        fun q => (p.1, p.2.1, contains_key q.2 A, contains_key q.2 B,
          contains_key q.2 C))) =
      some (some vA, true, false, true, true) := by
  simp [runInserts, insert, ensure_room, remove_last, remove_from_list, access,
    tableGet, tableContains, tableInsertAL, tableRemove, listSet, len,
    contains_key, peek, get, new, hAB, hAC, hBC,
    Ne.symm hAB, Ne.symm hAC, Ne.symm hBC]

/-- C6 witness: the scenario at concrete distinct keys. -/
theorem c6_peek_never_promotes_witness :
    (((runInserts (new 2 : LRUCache Nat Nat) [(1, 10), (2, 20)]).bind
      (fun c => (peek c 1).map fun r => (r, contains_key c 1, c)) |>.bind
      fun p => (insert p.2.2 3 30).map
        fun q => (p.1, p.2.1, contains_key q.2 1, contains_key q.2 2,
          contains_key q.2 3))) =
      some (some 10, true, false, true, true) :=
  c6_peek_never_promotes 1 2 3 10 20 30 (by decide) (by decide) (by decide)

/-- C7: inserting under an already-present key of a well-formed cache replaces
the stored value, returns the prior value, and adds no entry: the index, its
size and the arena length are unchanged, and a subsequent `get` (or `peek`)
returns the new value. -/
theorem c7_insert_replaces (c : LRUCache K V) (k : K) (v : V) (i : Nat)
    (e : CacheEntry K V) (hwf : WF c) (hi : tableGet c.table k = some i)
    (he : c.entries[i]? = some e) :
    ∃ c', insert c k v = some (e.value, c') ∧
      c'.table = c.table ∧ len c' = len c ∧
      c'.entries.length = c.entries.length ∧
      peek c' k = some (some v) ∧
      (get c' k).map Prod.fst = some (some v) := by
  obtain ⟨c', heq, hwf', ht', hcap', hlen', hpeek'⟩ := insert_present_spec hwf hi v
  refine ⟨c', ?_, ht', ?_, hlen', hpeek', ?_⟩
  · rw [heq, he]
    rfl
  · show c'.table.length = c.table.length
    rw [ht']
  · obtain ⟨r, c'', hgeq, hwf'', hpk, _⟩ := get_spec hwf' k
    rw [hgeq]
    have hr : r = some v := Option.some.inj (hpk.symm.trans hpeek')
    simp [hr]

/-- C7 witness: the documented scenario — `insert "foo" 1` returns `none`,
`insert "foo" 2` then returns `some 1` and a subsequent lookup sees `2`. -/
theorem c7_insert_replaces_witness :
    insert (new 2 : LRUCache String Nat) "foo" 1 =
      some (none, singletonCache 2 "foo" 1) ∧
    (∃ c', insert (singletonCache 2 "foo" 1 : LRUCache String Nat) "foo" 2 =
        some (some 1, c') ∧
      c'.table = (singletonCache 2 "foo" 1 : LRUCache String Nat).table ∧
      len c' = len (singletonCache 2 "foo" 1 : LRUCache String Nat) ∧
      c'.entries.length =
        (singletonCache 2 "foo" 1 : LRUCache String Nat).entries.length ∧
      peek c' "foo" = some (some 2) ∧
      (get c' "foo").map Prod.fst = some (some 2)) :=
  ⟨insert_new 2 "foo" 1,
   c7_insert_replaces (singletonCache 2 "foo" 1) "foo" 2 0
     { key := "foo", value := some 1, next := none, prev := none }
     (by decide) rfl rfl⟩

/-- C8: on every reachable cache state, every cache-engine operation is total:
`insert`, `remove`, `get`, `get_mut` and `peek` never hit a panic point (the
embedding returns `some`), and the internal `unwrap`s — `access`'s table
lookup under a presence check, and the `Vec` indexing and `value.take()`
inside `remove` and `remove_from_list` — never fail.  (`new`, `len`,
`is_empty`, `is_full` and `contains_key` are total by construction.) -/
theorem c8_operations_total {c : LRUCache K V} (hr : Reachable c) (k : K) (v : V) :
    (insert c k v).isSome = true ∧ (remove c k).isSome = true ∧
    (get c k).isSome = true ∧ (get_mut c k).isSome = true ∧
    (peek c k).isSome = true ∧
    (contains_key c k = true → (access c k).isSome = true) := by
  have hwf := WF_reachable hr
  refine ⟨?_, ?_, ?_, ?_, peek_isSome hwf k, ?_⟩
  · cases hg : tableGet c.table k with
    | some i =>
      obtain ⟨c', heq, _⟩ := insert_present_spec hwf hg v
      rw [heq]
      rfl
    | none =>
      have hmiss : tableContains c.table k = false := by
        unfold tableContains
        rw [hg]
        rfl
      obtain ⟨c1, c', hroom, heq, _⟩ := insert_miss_spec hwf hmiss v
      rw [heq]
      rfl
  · cases hg : tableGet c.table k with
    | some i =>
      obtain ⟨v', c', heq, _⟩ := remove_present_spec hwf hg
      rw [heq]
      rfl
    | none =>
      rw [remove_absent hg]
      rfl
  · obtain ⟨r, c', heq, _⟩ := get_spec hwf k
    rw [heq]
    rfl
  · obtain ⟨r, c', heq, _⟩ := get_mut_spec hwf k
    rw [heq]
    rfl
  · intro hcont
    obtain ⟨i, hi⟩ := tableContains_some hcont
    obtain ⟨c', heq, _⟩ := access_spec hwf hi
    rw [heq]
    rfl

/-- C8 witness: totality at a concrete reachable state. -/
theorem c8_operations_total_witness :
    (insert (new 2 : LRUCache Nat Nat) 0 0).isSome = true ∧
    (remove (new 2 : LRUCache Nat Nat) 0).isSome = true ∧
    (get (new 2 : LRUCache Nat Nat) 0).isSome = true ∧
    (get_mut (new 2 : LRUCache Nat Nat) 0).isSome = true ∧
    (peek (new 2 : LRUCache Nat Nat) 0).isSome = true ∧
    (contains_key (new 2 : LRUCache Nat Nat) 0 = true →
      (access (new 2 : LRUCache Nat Nat) 0).isSome = true) :=
  c8_operations_total (Reachable.init 2) 0 0

/-- C9: when the compute step fails on a miss (the key is absent and the file
exists), `serve_image` surfaces the failure (the code panics with the compute
error, embedded as the `panicked` outcome) and the cache state is returned
entirely unchanged — no entry is inserted — so a subsequent request with the
same key reaches the compute step again (`invoked = true`), and a succeeding
retry stores and serves the blob. -/
theorem c9_compute_failure_no_cache (c : LRUCache K V) (key : K) (e : String)
    (hwf : WF c) (hmiss : contains_key c key = false) :
    serve_image c key true (Except.error e) =
      some (ServeOutcome.panicked e, c, true) ∧
    (∀ v : V, ∃ c', serve_image c key true (Except.ok v) =
      some (ServeOutcome.served v, c', true)) := by
  constructor
  · simp [serve_image, hmiss]
  · intro v
    have hmiss' : tableContains c.table key = false := hmiss
    obtain ⟨c1, c', hroom, heq, hwf', hcap', ht', hlen', hpeek', hlen2⟩ :=
      insert_miss_spec hwf hmiss' v
    obtain ⟨r, c'', hgeq, hwf'', hpk, ht''⟩ := get_spec hwf' key
    have hr : r = some v := Option.some.inj (hpk.symm.trans hpeek')
    refine ⟨c'', ?_⟩
    rw [hr] at hgeq
    simp [serve_image, hmiss, heq, hgeq]

/-- C9 witness: compute failure and retry on a concrete fresh cache. -/
theorem c9_compute_failure_no_cache_witness :
    serve_image (new 1000 : LRUCache Nat (List Nat)) 7 true
      (Except.error "Failed to open image.") =
      some (ServeOutcome.panicked "Failed to open image.", new 1000, true) ∧
    (∀ v : List Nat, ∃ c', serve_image (new 1000 : LRUCache Nat (List Nat)) 7 true
      (Except.ok v) = some (ServeOutcome.served v, c', true)) :=
  c9_compute_failure_no_cache (new 1000) 7 "Failed to open image." (by decide) rfl

/-- C10: the single coarse lock is held across the presence check, the
compute, and the insert, so any number of concurrent requests for one key
execute as some sequence of atomic `serve_image` steps.  For every capacity,
key and blob, running `n ≥ 1` such steps from a fresh cache invokes the
compute callback exactly once in total: the first request computes and
inserts, every later one is a pure hit. -/
theorem c10_compute_at_most_once (cap : Nat) (k : K) (v : V) {n : Nat}
    (h : 1 ≤ n) :
    (serveN (new cap : LRUCache K V) k true (Except.ok v) n).map Prod.snd =
      some 1 := by
  obtain ⟨m, rfl⟩ : ∃ m, n = m + 1 := ⟨n - 1, (Nat.succ_pred_eq_of_pos h).symm⟩
  show (serveN (new cap : LRUCache K V) k true (Except.ok v) (m + 1)).map
    Prod.snd = some 1
  simp [serveN, serve_image_new_miss, serveN_hit]

/-- C10 witness: three requests for one key invoke compute exactly once. -/
theorem c10_compute_at_most_once_witness :
    (serveN (new 1000 : LRUCache Nat (List Nat)) 7 true
      (Except.ok [1, 2, 3]) 3).map Prod.snd = some 1 :=
  c10_compute_at_most_once 1000 7 [1, 2, 3] (by decide)

end LRU
